import Mathlib

/-!
Verification of the Bulls and Cows repository (src/game_functions.py, src/main.py).

The Python functions are shallowly embedded as Lean definitions:
digits travel as one-character strings (Python keeps them as `list[str]`
elements), a consumed position is marked with the empty string exactly as
the code does, list indexing with a fixed `range(NUMBER_LENGTH)` is
modelled with `l[i]?` so that a Python `IndexError` surfaces as `none`,
and file contents are passed in explicitly (`none` models a missing file).
-/

namespace BullsCows

/-- Constant `NUMBER_LENGTH` from game_functions.py: length of the number to guess. -/
def NUMBER_LENGTH : Nat := 4

/-- First loop of `evaluate_guess` (game_functions.py lines 107-111).
State is `(bulls, generated_number_copy, user_number)`; the loop body reads
`generated_number_copy[position]` and `user_number[position]` (an index out
of range is a Python `IndexError`, modelled by `none`) and on a match
increments `bulls` and overwrites both positions with `''`. -/
def bullsLoop : List Nat → Nat × List String × List String →
    Option (Nat × List String × List String)
  | [], st => some st
  | position :: rest, (bulls, copy, user) =>
    match copy[position]?, user[position]? with
    | some c, some u =>
      if c = u then
        bullsLoop rest (bulls + 1, copy.set position "", user.set position "")
      else
        bullsLoop rest (bulls, copy, user)
    | _, _ => none

/-- Second loop of `evaluate_guess` (game_functions.py lines 113-116).
`user` is the (already marked) user number, which this loop reads but never
writes; state is `(cows, generated_number_copy)`.  On a hit the first
matching occurrence in the copy (`list.index`) is overwritten with `''`. -/
def cowsLoop (user : List String) : List Nat → Nat × List String →
    Option (Nat × List String)
  | [], st => some st
  | position :: rest, (cows, copy) =>
    match user[position]? with
    | some u =>
      if u ≠ "" ∧ u ∈ copy then
        cowsLoop user rest (cows + 1, copy.set (copy.indexOf u) "")
      else
        cowsLoop user rest (cows, copy)
    | none => none

/-- Function `evaluate_guess` (game_functions.py lines 85-117).  Besides the returned
`(bulls, cows)` pair the embedding exposes the final state of the two caller
lists: `generated_number` itself is never written (the code works on
`generated_number.copy()`), while `user_number` keeps the in-place marks
made by the bulls loop. -/
def evaluate_guess (generated_number user_number : List String) :
    Option ((Nat × Nat) × List String × List String) :=
  match bullsLoop (List.range NUMBER_LENGTH) (0, generated_number, user_number) with
  | none => none
  | some (bulls, copy, user) =>
    match cowsLoop user (List.range NUMBER_LENGTH) (0, copy) with
    | none => none
    | some (cows, _) => some ((bulls, cows), generated_number, user)

/-- The `(bulls, cows)` pair returned by `evaluate_guess`. -/
def evaluate_guess_result (generated_number user_number : List String) :
    Option (Nat × Nat) :=
  (evaluate_guess generated_number user_number).map (fun r => r.1)

/-- The ten digit characters as one-character strings. -/
def digitStrings : List String :=
  ["0", "1", "2", "3", "4", "5", "6", "7", "8", "9"]

/-- Every entry of the list is a digit character. -/
def IsDigits (l : List String) : Prop := ∀ x ∈ l, x ∈ digitStrings

instance (l : List String) : Decidable (IsDigits l) :=
  inferInstanceAs (Decidable (∀ x ∈ l, x ∈ digitStrings))

/-- Reference algorithm of spec section 4.1, pass 1, written from the spec
text: walk the two equal-length sequences position by position; where
`secret[i] == guess[i]` count a bull and mark both positions as consumed
(`none`); an unconsumed position keeps its digit as `some`. -/
def specPass1 : List String → List String →
    Nat × List (Option String) × List (Option String)
  | s :: ss, g :: gs =>
    let r := specPass1 ss gs
    if s = g then (r.1 + 1, none :: r.2.1, none :: r.2.2)
    else (r.1, some s :: r.2.1, some g :: r.2.2)
  | _, _ => (0, [], [])

/-- Spec section 4.1, pass 2 consumption step: consume the first occurrence,
in scan order, of the digit `g` among the unconsumed secret positions. -/
def specConsume (g : String) : List (Option String) → List (Option String)
  | [] => []
  | o :: rest => if o = some g then none :: rest else o :: specConsume g rest

/-- Reference algorithm of spec section 4.1, pass 2, written from the spec
text: scan the remaining guess positions in order; each unconsumed guess
digit that still occurs among the unconsumed secret digits adds one cow and
consumes the first matching secret occurrence. -/
def specPass2 : List (Option String) → List (Option String) → Nat
  | [], _ => 0
  | none :: gs, secret => specPass2 gs secret
  | some g :: gs, secret =>
    if some g ∈ secret then specPass2 gs (specConsume g secret) + 1
    else specPass2 gs secret

/-- The spec's two-pass reference evaluator (spec section 4.1). -/
def spec_evaluate (secret guess : List String) : Nat × Nat :=
  let r := specPass1 secret guess
  (r.1, specPass2 r.2.2 r.2.1)

/-- Structural form of the bulls loop: on equal-length lists the indexed
loop over `range NUMBER_LENGTH` visits exactly the successive heads. -/
def codePass1 : Nat → List String → List String → Nat × List String × List String
  | bulls, c :: cs, u :: us =>
    if c = u then
      let r := codePass1 (bulls + 1) cs us
      (r.1, "" :: r.2.1, "" :: r.2.2)
    else
      let r := codePass1 bulls cs us
      (r.1, c :: r.2.1, u :: r.2.2)
  | bulls, cs, us => (bulls, cs, us)

/-- Structural form of the cows loop: state `(cows, copy)`, scanning the
marked user number from the left. -/
def codePass2 : Nat → List String → List String → Nat × List String
  | cows, copy, [] => (cows, copy)
  | cows, copy, u :: us =>
    if u ≠ "" ∧ u ∈ copy then
      codePass2 (cows + 1) (copy.set (copy.indexOf u) "") us
    else
      codePass2 cows copy us

/-- Unmark: a consumed position reads back as `''`, exactly the marker the
code itself writes into the lists. -/
def fromMark (o : Option String) : String := o.getD ""

/-- No mark carries the empty string as a digit (true whenever the original
entries are digits, and preserved by both passes). -/
def MarksOk (l : List (Option String)) : Prop := ∀ o ∈ l, o ≠ some ""

/-- Python `line.strip()`: drop whitespace from both ends of the line,
modelled on the line's characters. -/
def strip (l : List Char) : List Char :=
  ((l.dropWhile Char.isWhitespace).reverse.dropWhile Char.isWhitespace).reverse

/-- Value of a non-empty all-digit character run, the digit part of Python
`int(...)`; any non-digit character (or an empty run) raises `ValueError`,
modelled by `none`. -/
def digitsVal? (l : List Char) : Option Nat :=
  if l.isEmpty then none
  else
    l.foldl (fun acc c =>
      match acc with
      | none => none
      | some n => if c.isDigit then some (n * 10 + (c.toNat - 48)) else none)
      (some 0)

/-- Python `int(s)` on an already-stripped string: an optional sign followed
by at least one digit; anything else raises `ValueError` (`none`). -/
def pyInt? : List Char → Option Int
  | '-' :: ds => (digitsVal? ds).map (fun n => -(n : Int))
  | '+' :: ds => (digitsVal? ds).map (fun n => (n : Int))
  | ds => (digitsVal? ds).map (fun n => (n : Int))

/-- The list comprehension of `highscore` (game_functions.py line 175):
`[int(line.strip()) for line in file if line.strip()]`.  A blank line is
skipped; a non-blank line that does not parse as an integer raises
`ValueError`, which discards the whole read (`none`). -/
def read_lines : List (List Char) → Option (List Int)
  | [] => some []
  | line :: rest =>
    if strip line = [] then read_lines rest
    else
      match pyInt? (strip line) with
      | some n => (read_lines rest).map (fun ns => n :: ns)
      | none => none

/-- The `try`/`except` read of `highscore` (game_functions.py lines
173-177): a missing file (`none`, Python `FileNotFoundError`) or an
unparseable line (`ValueError`) yields the empty score list. -/
def read_scores (file : Option (List (List Char))) : List Int :=
  match file with
  | none => []
  | some lines =>
    match read_lines lines with
    | some ns => ns
    | none => []

/-- Function `highscore` (game_functions.py lines 154-187), with the file passed in
explicitly as its list of lines (each line a character list).  The body
appends the new score, sorts ascending (Python `sorted`), keeps the first
10, and rewrites the file one score per line; the returned pair is
(returned list, lines written back). -/
def highscore (file : Option (List (List Char))) (score : Int) :
    List Int × List String :=
  let scores := read_scores file ++ [score]
  let scores := (scores.mergeSort (fun a b => a ≤ b)).take 10
  (scores, scores.map (fun s => toString s))

/-- Python's `round` on a real value: round to the nearest integer, ties to
the even neighbour (banker's rounding). -/
def pyRound (q : ℚ) : ℤ :=
  if q - ⌊q⌋ < 1/2 then ⌊q⌋
  else if 1/2 < q - ⌊q⌋ then ⌊q⌋ + 1
  else if Even ⌊q⌋ then ⌊q⌋ else ⌊q⌋ + 1

/-- Function `calculate_time` (game_functions.py lines 135-151), with the float
timestamps modelled as exact rationals: `minutes = time_elapsed // 60`
(floor division, already integral so `int` is the identity),
`seconds = round(time_elapsed % 60)` where Python float `%` is
`t - 60 * (t // 60)`, and `total = round(time_elapsed)`. -/
def calculate_time (start_time end_time : ℚ) : ℤ × ℤ × ℤ :=
  let time_elapsed := end_time - start_time
  let minutes : ℤ := ⌊time_elapsed / 60⌋
  let seconds : ℚ := time_elapsed - 60 * ⌊time_elapsed / 60⌋
  (minutes, pyRound seconds, pyRound time_elapsed)

/-- Function `check_python_version` (main.py lines 31-46): raise `RuntimeError` when
`current[:2] < required`, Python's lexicographic comparison of the
`(major, minor)` pairs; an exception is modelled as `Except.error` carrying
the message, normal return as `Except.ok ()`. -/
def check_python_version (current required : Nat × Nat) : Except String Unit :=
  if current.1 < required.1 ∨ (current.1 = required.1 ∧ current.2 < required.2) then
    Except.error ("Requires Python " ++ toString required.1 ++ "." ++
      toString required.2 ++ "+, but found " ++ toString current.1 ++ "." ++
      toString current.2)
  else
    Except.ok ()

theorem bullsLoop_shift (ps : List Nat) (b : Nat) (x y : String)
    (xs ys : List String) :
    bullsLoop (ps.map Nat.succ) (b, x :: xs, y :: ys) =
      (bullsLoop ps (b, xs, ys)).map (fun st => (st.1, x :: st.2.1, y :: st.2.2)) := by
  induction ps generalizing b xs ys with
  | nil => rfl
  | cons p ps ih =>
    simp only [List.map_cons, bullsLoop, Nat.succ_eq_add_one,
      List.getElem?_cons_succ]
    cases hx : xs[p]? with
    | none => rfl
    | some c =>
      cases hy : ys[p]? with
      | none => rfl
      | some u =>
        by_cases hcu : c = u
        · simp only [hcu, if_pos rfl, List.set_cons_succ]
          exact ih (b + 1) (xs.set p "") (ys.set p "")
        · simp only [if_neg hcu]
          exact ih b xs ys

theorem bullsLoop_eq_codePass1 :
    ∀ (xs ys : List String) (b : Nat), xs.length = ys.length →
      bullsLoop (List.range xs.length) (b, xs, ys) = some (codePass1 b xs ys) := by
  intro xs
  induction xs with
  | nil =>
    intro ys b h
    cases ys with
    | nil => rfl
    | cons y ys => simp at h
  | cons x xs ih =>
    intro ys b h
    cases ys with
    | nil => simp at h
    | cons y ys =>
      simp only [List.length_cons] at h
      have h' : xs.length = ys.length := Nat.succ_injective h
      simp only [List.length_cons, List.range_succ_eq_map, bullsLoop,
        List.getElem?_cons_zero]
      by_cases hxy : x = y
      · simp only [hxy, if_pos rfl, List.set]
        rw [bullsLoop_shift, ih ys (b + 1) h']
        simp [codePass1, hxy]
      · simp only [if_neg hxy]
        rw [bullsLoop_shift, ih ys b h']
        simp [codePass1, hxy]

theorem cowsLoop_shift (ps : List Nat) (y : String) (ys : List String)
    (st : Nat × List String) :
    cowsLoop (y :: ys) (ps.map Nat.succ) st = cowsLoop ys ps st := by
  induction ps generalizing st with
  | nil => rfl
  | cons p ps ih =>
    simp only [List.map_cons, cowsLoop, Nat.succ_eq_add_one,
      List.getElem?_cons_succ]
    cases hy : ys[p]? with
    | none => rfl
    | some u =>
      by_cases hu : u ≠ "" ∧ u ∈ st.2
      · simp only [if_pos hu]
        exact ih _
      · simp only [if_neg hu]
        exact ih _

theorem cowsLoop_eq_codePass2 :
    ∀ (user : List String) (c : Nat) (copy : List String),
      cowsLoop user (List.range user.length) (c, copy) =
        some (codePass2 c copy user) := by
  intro user
  induction user with
  | nil => intro c copy; rfl
  | cons u us ih =>
    intro c copy
    simp only [List.length_cons, List.range_succ_eq_map, cowsLoop,
      List.getElem?_cons_zero]
    by_cases hu : u ≠ "" ∧ u ∈ copy
    · simp only [if_pos hu]
      rw [cowsLoop_shift, ih]
      simp [codePass2, hu]
    · simp only [if_neg hu]
      rw [cowsLoop_shift, ih]
      simp only [codePass2, if_neg hu]

theorem codePass1_length :
    ∀ (xs ys : List String) (b : Nat),
      (codePass1 b xs ys).2.1.length = xs.length ∧
      (codePass1 b xs ys).2.2.length = ys.length := by
  intro xs
  induction xs with
  | nil => intro ys b; simp [codePass1]
  | cons x xs ih =>
    intro ys b
    cases ys with
    | nil => simp [codePass1]
    | cons y ys =>
      by_cases hxy : x = y
      · simp only [codePass1, if_pos hxy, List.length_cons]
        have := ih ys (b + 1)
        exact ⟨by rw [this.1], by rw [this.2]⟩
      · simp only [codePass1, if_neg hxy, List.length_cons]
        have := ih ys b
        exact ⟨by rw [this.1], by rw [this.2]⟩

theorem evaluate_guess_struct (s g : List String) (hs : s.length = NUMBER_LENGTH)
    (hg : g.length = NUMBER_LENGTH) :
    evaluate_guess s g =
      some (((codePass1 0 s g).1,
             (codePass2 0 (codePass1 0 s g).2.1 (codePass1 0 s g).2.2).1),
            s, (codePass1 0 s g).2.2) := by
  have hlen : s.length = g.length := by rw [hs, hg]
  have h1 := bullsLoop_eq_codePass1 s g 0 hlen
  have hu : (codePass1 0 s g).2.2.length = NUMBER_LENGTH := by
    rw [(codePass1_length s g 0).2, hg]
  have h2 := cowsLoop_eq_codePass2 (codePass1 0 s g).2.2 0 (codePass1 0 s g).2.1
  rw [hu] at h2
  rw [hs] at h1
  rcases hcp : codePass1 0 s g with ⟨b1, copy1, user1⟩
  rw [hcp] at h1 h2
  rcases hc2 : codePass2 0 copy1 user1 with ⟨c2, copy2⟩
  rw [hc2] at h2
  simp only at h2
  simp only [evaluate_guess, h1, h2]

theorem IsDigits.not_empty {l : List String} (h : IsDigits l) :
    ∀ x ∈ l, x ≠ "" := by
  intro x hx he
  subst he
  exact absurd (h "" hx) (by decide)

theorem specPass1_ok :
    ∀ (s g : List String), (∀ x ∈ s, x ≠ "") → (∀ x ∈ g, x ≠ "") →
      MarksOk (specPass1 s g).2.1 ∧ MarksOk (specPass1 s g).2.2 := by
  intro s
  induction s with
  | nil => intro g hs hg; simp [specPass1, MarksOk]
  | cons x xs ih =>
    intro g hs hg
    cases g with
    | nil => simp [specPass1, MarksOk]
    | cons y ys =>
      have hs' : ∀ a ∈ xs, a ≠ "" := fun a ha => hs a (List.mem_cons_of_mem x ha)
      have hg' : ∀ a ∈ ys, a ≠ "" := fun a ha => hg a (List.mem_cons_of_mem y ha)
      have hih := ih ys hs' hg'
      by_cases hxy : x = y
      · simp only [specPass1, if_pos hxy, MarksOk, List.mem_cons]
        constructor
        · rintro o (rfl | ho)
          · simp
          · exact hih.1 o ho
        · rintro o (rfl | ho)
          · simp
          · exact hih.2 o ho
      · simp only [specPass1, if_neg hxy, MarksOk, List.mem_cons]
        constructor
        · rintro o (rfl | ho)
          · simp [hs x (List.mem_cons_self x xs)]
          · exact hih.1 o ho
        · rintro o (rfl | ho)
          · simp [hg y (List.mem_cons_self y ys)]
          · exact hih.2 o ho

theorem codePass1_eq_spec :
    ∀ (s g : List String) (b : Nat), s.length = g.length →
      codePass1 b s g =
        (b + (specPass1 s g).1,
         (specPass1 s g).2.1.map fromMark,
         (specPass1 s g).2.2.map fromMark) := by
  intro s
  induction s with
  | nil =>
    intro g b h
    cases g with
    | nil => simp [codePass1, specPass1]
    | cons y ys => simp at h
  | cons x xs ih =>
    intro g b h
    cases g with
    | nil => simp at h
    | cons y ys =>
      simp only [List.length_cons] at h
      have h' : xs.length = ys.length := Nat.succ_injective h
      by_cases hxy : x = y
      · simp only [codePass1, specPass1, if_pos hxy, ih ys (b + 1) h',
          List.map_cons, fromMark, Option.getD, Prod.mk.injEq]
        exact ⟨by omega, trivial⟩
      · simp only [codePass1, specPass1, if_neg hxy, ih ys b h',
          List.map_cons, fromMark, Option.getD]

theorem mem_map_fromMark (d : String) (hd : d ≠ "") :
    ∀ (m : List (Option String)),
      (d ∈ m.map fromMark ↔ some d ∈ m) := by
  intro m
  induction m with
  | nil => simp
  | cons o rest ih =>
    cases o with
    | none =>
      simp only [List.map_cons, List.mem_cons, ih, fromMark, Option.getD]
      constructor
      · rintro (h | h)
        · exact absurd h hd
        · exact Or.inr h
      · rintro (h | h)
        · exact Option.noConfusion h
        · exact Or.inr h
    | some x => simp [fromMark, ih]

theorem marksOk_specConsume (d : String) :
    ∀ (m : List (Option String)), MarksOk m → MarksOk (specConsume d m) := by
  intro m
  induction m with
  | nil => intro _; simp [specConsume, MarksOk]
  | cons o rest ih =>
    intro hm
    have hm' : MarksOk rest := fun a ha => hm a (List.mem_cons_of_mem o ha)
    by_cases ho : o = some d
    · simp only [specConsume, if_pos ho, MarksOk, List.mem_cons]
      rintro a (rfl | ha)
      · simp
      · exact hm' a ha
    · simp only [specConsume, if_neg ho, MarksOk, List.mem_cons]
      rintro a (rfl | ha)
      · exact hm a (List.mem_cons_self a rest)
      · exact ih hm' a ha

theorem set_indexOf_eq_specConsume (d : String) (hd : d ≠ "") :
    ∀ (m : List (Option String)), MarksOk m → some d ∈ m →
      (m.map fromMark).set ((m.map fromMark).indexOf d) "" =
        (specConsume d m).map fromMark := by
  intro m
  induction m with
  | nil => intro _ h; simp at h
  | cons o rest ih =>
    intro hm hmem
    have hm' : MarksOk rest := fun a ha => hm a (List.mem_cons_of_mem o ha)
    by_cases ho : o = some d
    · subst ho
      simp only [List.map_cons, fromMark, Option.getD, specConsume, if_pos rfl]
      rw [List.indexOf_cons_self]
      rfl
    · have hne : fromMark o ≠ d := by
        cases o with
        | none => simpa [fromMark] using Ne.symm hd
        | some x =>
          simp only [fromMark, Option.getD]
          intro hxd
          exact ho (by rw [hxd])
      have hmem' : some d ∈ rest := by
        rcases List.mem_cons.mp hmem with h | h
        · exact absurd h.symm ho
        · exact h
      simp only [List.map_cons, specConsume, if_neg ho]
      rw [List.indexOf_cons_ne _ hne]
      simp only [List.set_cons_succ, List.map_cons]
      rw [ih hm' hmem']

theorem codePass2_eq_spec :
    ∀ (gm m : List (Option String)) (c : Nat), MarksOk m → MarksOk gm →
      (codePass2 c (m.map fromMark) (gm.map fromMark)).1 = c + specPass2 gm m := by
  intro gm
  induction gm with
  | nil => intro m c _ _; simp [codePass2, specPass2]
  | cons o gs ih =>
    intro m c hm hgm
    have hgm' : MarksOk gs := fun a ha => hgm a (List.mem_cons_of_mem o ha)
    cases o with
    | none =>
      have : ¬(fromMark none ≠ "" ∧ fromMark none ∈ m.map fromMark) := by
        simp [fromMark]
      simp only [List.map_cons, codePass2, if_neg this, specPass2]
      exact ih m c hm hgm'
    | some d =>
      have hd : d ≠ "" := by
        intro hde
        exact hgm (some d) (List.mem_cons_self _ gs) (by rw [hde])
      by_cases hmem : some d ∈ m
      · have hcond : fromMark (some d) ≠ "" ∧ fromMark (some d) ∈ m.map fromMark := by
          refine ⟨by simpa [fromMark] using hd, ?_⟩
          simpa [fromMark] using (mem_map_fromMark d hd m).mpr hmem
        simp only [List.map_cons, codePass2, if_pos hcond, specPass2, if_pos hmem]
        have hset := set_indexOf_eq_specConsume d hd m hm hmem
        simp only [fromMark, Option.getD] at hset ⊢
        rw [hset, ih (specConsume d m) (c + 1) (marksOk_specConsume d m hm) hgm']
        omega
      · have hcond : ¬(fromMark (some d) ≠ "" ∧ fromMark (some d) ∈ m.map fromMark) := by
          intro hc
          exact hmem ((mem_map_fromMark d hd m).mp (by simpa [fromMark] using hc.2))
        simp only [List.map_cons, codePass2, if_neg hcond, specPass2, if_neg hmem]
        exact ih m c hm hgm'

/-- C1: for every pair of length-4 digit sequences, `evaluate_guess` returns
exactly the (bulls, cows) pair computed by the two-pass reference algorithm
of spec section 4.1. -/
theorem evaluate_guess_matches_spec (s g : List String)
    (hs : s.length = 4) (hg : g.length = 4)
    (hds : IsDigits s) (hdg : IsDigits g) :
    evaluate_guess_result s g = some (spec_evaluate s g) := by
  have hsN : s.length = NUMBER_LENGTH := hs
  have hgN : g.length = NUMBER_LENGTH := hg
  have hlen : s.length = g.length := by rw [hs, hg]
  have hstruct := evaluate_guess_struct s g hsN hgN
  have hcp1 := codePass1_eq_spec s g 0 hlen
  have hok := specPass1_ok s g hds.not_empty hdg.not_empty
  have hcp2 := codePass2_eq_spec (specPass1 s g).2.2 (specPass1 s g).2.1 0 hok.1 hok.2
  rw [evaluate_guess_result, hstruct, hcp1]
  simp only [Option.map_some, spec_evaluate]
  rw [hcp2]
  simp

/-- C1 witness: the theorem applied at a concrete pair of length-4 digit
sequences. -/
theorem evaluate_guess_matches_spec_witness :
    evaluate_guess_result ["1","1","2","2"] ["2","2","1","1"] =
      some (spec_evaluate ["1","1","2","2"] ["2","2","1","1"]) :=
  evaluate_guess_matches_spec ["1","1","2","2"] ["2","2","1","1"]
    (by decide) (by decide) (by decide) (by decide)

theorem bullsLoop_total :
    ∀ (ps : List Nat) (b : Nat) (copy user : List String),
      (∀ p ∈ ps, p < copy.length ∧ p < user.length) →
      ∃ st, bullsLoop ps (b, copy, user) = some st := by
  intro ps
  induction ps with
  | nil => intro b copy user _; exact ⟨(b, copy, user), rfl⟩
  | cons p rest ih =>
    intro b copy user h
    have hp := h p (List.mem_cons_self p rest)
    have h' : ∀ q ∈ rest, q < copy.length ∧ q < user.length :=
      fun q hq => h q (List.mem_cons_of_mem p hq)
    simp only [bullsLoop, List.getElem?_eq_getElem hp.1, List.getElem?_eq_getElem hp.2]
    by_cases hcu : copy[p] = user[p]
    · simp only [if_pos hcu]
      exact ih (b + 1) (copy.set p "") (user.set p "")
        (by simpa [List.length_set] using h')
    · simp only [if_neg hcu]
      exact ih b copy user h'

theorem bullsLoop_frame :
    ∀ (ps : List Nat) (b : Nat) (copy user : List String)
      (st : Nat × List String × List String),
      bullsLoop ps (b, copy, user) = some st →
        st.2.1.length = copy.length ∧ st.2.2.length = user.length ∧
        ∀ q, q ∉ ps → st.2.2[q]? = user[q]? := by
  intro ps
  induction ps with
  | nil =>
    intro b copy user st h
    cases h
    exact ⟨rfl, rfl, fun q _ => rfl⟩
  | cons p rest ih =>
    intro b copy user st h
    simp only [bullsLoop] at h
    cases hc : copy[p]? with
    | none => rw [hc] at h; cases h
    | some c =>
      cases hu : user[p]? with
      | none => rw [hc, hu] at h; cases h
      | some u =>
        rw [hc, hu] at h
        simp only at h
        by_cases hcu : c = u
        · rw [if_pos hcu] at h
          have := ih (b + 1) (copy.set p "") (user.set p "") st h
          refine ⟨by rw [this.1, List.length_set], by rw [this.2.1, List.length_set], ?_⟩
          intro q hq
          have hqp : q ≠ p := fun he => hq (he ▸ List.mem_cons_self p rest)
          have hqr : q ∉ rest := fun hr => hq (List.mem_cons_of_mem p hr)
          rw [this.2.2 q hqr, List.getElem?_set_ne (Ne.symm hqp)]
        · rw [if_neg hcu] at h
          have := ih b copy user st h
          exact ⟨this.1, this.2.1, fun q hq =>
            this.2.2 q (fun hr => hq (List.mem_cons_of_mem p hr))⟩

theorem bullsLoop_count :
    ∀ (ps : List Nat) (b : Nat) (copy user : List String)
      (st : Nat × List String × List String),
      ps.Nodup → (∀ p ∈ ps, user[p]? ≠ some "") →
      bullsLoop ps (b, copy, user) = some st →
      st.1 = b + ps.countP (fun p => decide (st.2.2[p]? = some "")) := by
  intro ps
  induction ps with
  | nil =>
    intro b copy user st _ _ h
    cases h
    simp
  | cons p rest ih =>
    intro b copy user st hnd hne h
    have hndr : rest.Nodup := (List.nodup_cons.mp hnd).2
    have hpr : p ∉ rest := (List.nodup_cons.mp hnd).1
    simp only [bullsLoop] at h
    cases hc : copy[p]? with
    | none => rw [hc] at h; cases h
    | some c =>
      cases hu : user[p]? with
      | none => rw [hc, hu] at h; cases h
      | some u =>
        rw [hc, hu] at h
        simp only at h
        have hplt : p < user.length := (List.getElem?_eq_some.mp hu).1
        by_cases hcu : c = u
        · rw [if_pos hcu] at h
          have hne' : ∀ q ∈ rest, (user.set p "")[q]? ≠ some "" := by
            intro q hq
            have hqp : q ≠ p := fun he => hpr (he ▸ hq)
            rw [List.getElem?_set_ne (Ne.symm hqp)]
            exact hne q (List.mem_cons_of_mem p hq)
          have hcount := ih (b + 1) (copy.set p "") (user.set p "") st hndr hne' h
          have hframe := bullsLoop_frame rest (b + 1) (copy.set p "") (user.set p "") st h
          have hstp : st.2.2[p]? = some "" := by
            rw [hframe.2.2 p hpr, List.getElem?_set_self hplt]
          have hcp : (p :: rest).countP (fun q => decide (st.2.2[q]? = some "")) =
              rest.countP (fun q => decide (st.2.2[q]? = some "")) + 1 := by
            rw [List.countP_cons]
            simp [hstp]
          rw [hcp]
          omega
        · rw [if_neg hcu] at h
          have hcount := ih b copy user st hndr
            (fun q hq => hne q (List.mem_cons_of_mem p hq)) h
          have hframe := bullsLoop_frame rest b copy user st h
          have hstp : st.2.2[p]? ≠ some "" := by
            rw [hframe.2.2 p hpr]
            exact hne p (List.mem_cons_self p rest)
          have hcp : (p :: rest).countP (fun q => decide (st.2.2[q]? = some "")) =
              rest.countP (fun q => decide (st.2.2[q]? = some "")) := by
            rw [List.countP_cons]
            simp [hstp]
          rw [hcp]
          omega

theorem cowsLoop_total (user : List String) :
    ∀ (ps : List Nat) (c : Nat) (copy : List String),
      (∀ p ∈ ps, p < user.length) →
      ∃ st, cowsLoop user ps (c, copy) = some st := by
  intro ps
  induction ps with
  | nil => intro c copy _; exact ⟨(c, copy), rfl⟩
  | cons p rest ih =>
    intro c copy h
    have hp := h p (List.mem_cons_self p rest)
    have h' : ∀ q ∈ rest, q < user.length :=
      fun q hq => h q (List.mem_cons_of_mem p hq)
    simp only [cowsLoop, List.getElem?_eq_getElem hp]
    by_cases hcond : user[p] ≠ "" ∧ user[p] ∈ copy
    · simp only [if_pos hcond]
      exact ih (c + 1) _ h'
    · simp only [if_neg hcond]
      exact ih c copy h'

theorem cowsLoop_le (user : List String) :
    ∀ (ps : List Nat) (c : Nat) (copy : List String) (st : Nat × List String),
      cowsLoop user ps (c, copy) = some st →
      st.1 ≤ c + ps.countP (fun p => decide (user[p]? ≠ some "")) := by
  intro ps
  induction ps with
  | nil =>
    intro c copy st h
    cases h
    simp
  | cons p rest ih =>
    intro c copy st h
    simp only [cowsLoop] at h
    cases hu : user[p]? with
    | none => rw [hu] at h; cases h
    | some u =>
      rw [hu] at h
      simp only at h
      by_cases hcond : u ≠ "" ∧ u ∈ copy
      · rw [if_pos hcond] at h
        have hne : user[p]? ≠ some "" := by
          rw [hu]
          simp only [ne_eq, Option.some.injEq]
          exact hcond.1
        have hih := ih (c + 1) _ st h
        have hcp : (p :: rest).countP (fun q => decide (user[q]? ≠ some "")) =
            rest.countP (fun q => decide (user[q]? ≠ some "")) + 1 := by
          rw [List.countP_cons]
          simp [hne]
        rw [hcp]
        omega
      · rw [if_neg hcond] at h
        have hih := ih c copy st h
        have hcp : rest.countP (fun q => decide (user[q]? ≠ some "")) ≤
            (p :: rest).countP (fun q => decide (user[q]? ≠ some "")) := by
          rw [List.countP_cons]
          exact Nat.le_add_right _ _
        omega

/-- C2 counterexample: on the equal-length digit sequences "12" and "12"
(length 2), `evaluate_guess` does not return any pair at all: the loop over
`range(NUMBER_LENGTH)` indexes position 2 of a length-2 list, a Python
`IndexError`, so the claim fails for lengths below 4. -/
theorem evaluate_guess_short_crashes :
    evaluate_guess ["1", "2"] ["1", "2"] = none := by decide

/-- C2 (amended): for equal-length digit sequences of length at least 4,
`evaluate_guess` returns a pair with bulls + cows ≤ len(secret). -/
theorem evaluate_guess_bulls_add_cows_le (s g : List String)
    (hlen : s.length = g.length) (h4 : 4 ≤ s.length)
    (_hds : IsDigits s) (hdg : IsDigits g) :
    ∃ b c fs fg, evaluate_guess s g = some ((b, c), fs, fg) ∧ b + c ≤ s.length := by
  have hg4 : 4 ≤ g.length := hlen ▸ h4
  have hvalid : ∀ p ∈ List.range NUMBER_LENGTH, p < s.length ∧ p < g.length := by
    intro p hp
    have hp4 : p < 4 := List.mem_range.mp hp
    exact ⟨lt_of_lt_of_le hp4 h4, lt_of_lt_of_le hp4 hg4⟩
  obtain ⟨st1, h1⟩ := bullsLoop_total (List.range NUMBER_LENGTH) 0 s g hvalid
  obtain ⟨b1, copy1, user1⟩ := st1
  have hframe := bullsLoop_frame _ 0 s g (b1, copy1, user1) h1
  have hvalid2 : ∀ p ∈ List.range NUMBER_LENGTH, p < user1.length := by
    intro p hp
    have : user1.length = g.length := hframe.2.1
    rw [this]
    exact (hvalid p hp).2
  obtain ⟨st2, h2⟩ := cowsLoop_total user1 (List.range NUMBER_LENGTH) 0 copy1 hvalid2
  obtain ⟨c2, copy2⟩ := st2
  refine ⟨b1, c2, s, user1, ?_, ?_⟩
  · simp only [evaluate_guess, h1, h2]
  · have hgne : ∀ p ∈ List.range NUMBER_LENGTH, g[p]? ≠ some "" := by
      intro p _ he
      obtain ⟨hlt, hgp⟩ := List.getElem?_eq_some.mp he
      exact hdg.not_empty "" (hgp ▸ List.getElem_mem hlt) rfl
    have hb := bullsLoop_count _ 0 s g (b1, copy1, user1) (List.nodup_range _) hgne h1
    have hc := cowsLoop_le user1 _ 0 copy1 (c2, copy2) h2
    simp only at hb hc
    have hsum := List.length_eq_countP_add_countP
      (fun q => decide (user1[q]? = some "")) (List.range NUMBER_LENGTH)
    have hcong : (List.range NUMBER_LENGTH).countP
          (fun a => decide ¬((fun q => decide (user1[q]? = some "")) a = true)) =
        (List.range NUMBER_LENGTH).countP (fun q => decide (user1[q]? ≠ some "")) :=
      List.countP_congr (fun a _ => by simp)
    rw [hcong] at hsum
    have h4' : (List.range NUMBER_LENGTH).length = 4 := by simp [NUMBER_LENGTH]
    omega

/-- C2 witness: the amended theorem applied at a concrete length-5 pair. -/
theorem evaluate_guess_bulls_add_cows_le_witness :
    ∃ b c fs fg, evaluate_guess ["1","2","3","4","5"] ["5","4","3","2","1"] =
      some ((b, c), fs, fg) ∧ b + c ≤ (["1","2","3","4","5"] : List String).length :=
  evaluate_guess_bulls_add_cows_le ["1","2","3","4","5"] ["5","4","3","2","1"]
    (by decide) (by decide) (by decide) (by decide)

theorem codePass1_self :
    ∀ (s : List String) (b : Nat),
      codePass1 b s s = (b + s.length,
        List.replicate s.length "", List.replicate s.length "") := by
  intro s
  induction s with
  | nil => intro b; simp [codePass1]
  | cons x xs ih =>
    intro b
    simp only [codePass1, eq_self_iff_true, if_true, ih (b + 1),
      List.length_cons, List.replicate_succ, Prod.mk.injEq, and_true, true_and]
    omega

theorem codePass2_replicate :
    ∀ (n : Nat) (c : Nat) (copy : List String),
      codePass2 c copy (List.replicate n "") = (c, copy) := by
  intro n
  induction n with
  | zero => intro c copy; rfl
  | succ n ih =>
    intro c copy
    have hcond : ¬(("" : String) ≠ "" ∧ ("" : String) ∈ copy) := by simp
    simp only [List.replicate_succ, codePass2, if_neg hcond]
    exact ih c copy

/-- C3 counterexample: on the length-5 digit sequence "12345" guessed
against itself, `evaluate_guess` returns (4, 0), not (len, 0) = (5, 0),
because both loops only visit positions 0..3. -/
theorem evaluate_guess_self_len5 :
    evaluate_guess_result ["1","2","3","4","5"] ["1","2","3","4","5"] ≠
      some ((["1","2","3","4","5"] : List String).length, 0) := by decide

/-- C3 (amended): for every length-4 sequence S,
`evaluate_guess(S, S) = (len(S), 0)`. -/
theorem evaluate_guess_self (S : List String) (h : S.length = 4) :
    evaluate_guess_result S S = some (S.length, 0) := by
  have hN : S.length = NUMBER_LENGTH := h
  have hstruct := evaluate_guess_struct S S hN hN
  rw [evaluate_guess_result, hstruct, codePass1_self S 0]
  simp [codePass2_replicate]

/-- C3 witness: the amended theorem applied at the sequence "1234". -/
theorem evaluate_guess_self_witness :
    evaluate_guess_result ["1","2","3","4"] ["1","2","3","4"] =
      some ((["1","2","3","4"] : List String).length, 0) :=
  evaluate_guess_self ["1","2","3","4"] (by decide)

/-- C4: the three concrete test vectors of spec section 8 hold for
`evaluate_guess`. -/
theorem evaluate_guess_test_vectors :
    evaluate_guess_result ["1","2","3","4"] ["4","3","2","1"] = some (0, 4) ∧
    evaluate_guess_result ["1","1","2","2"] ["2","2","1","1"] = some (0, 4) ∧
    evaluate_guess_result ["1","1","1","1"] ["1","2","2","2"] = some (1, 0) := by
  decide

theorem codePass1_user :
    ∀ (s g : List String) (b : Nat), s.length = g.length →
      (codePass1 b s g).2.2 =
        List.zipWith (fun x y => if x = y then "" else y) s g := by
  intro s
  induction s with
  | nil =>
    intro g b h
    cases g with
    | nil => rfl
    | cons y ys => simp at h
  | cons x xs ih =>
    intro g b h
    cases g with
    | nil => simp at h
    | cons y ys =>
      simp only [List.length_cons] at h
      have h' : xs.length = ys.length := Nat.succ_injective h
      by_cases hxy : x = y
      · simp only [codePass1, if_pos hxy, List.zipWith_cons_cons, ih ys (b + 1) h']
      · simp only [codePass1, if_neg hxy, List.zipWith_cons_cons, ih ys b h']

/-- C5 counterexample: `evaluate_guess` mutates its guess argument: after
evaluating secret "1234" against guess "1567", the caller's guess list
holds ["", "5", "6", "7"], not the original digits. -/
theorem evaluate_guess_mutates_guess :
    evaluate_guess ["1","2","3","4"] ["1","5","6","7"] =
      some ((1, 0), ["1","2","3","4"], ["","5","6","7"]) ∧
    (["","5","6","7"] : List String) ≠ ["1","5","6","7"] := by decide

/-- C5 (amended): `evaluate_guess` is deterministic and leaves the secret
argument unchanged (the code works on a copy), but it mutates the guess
argument in place: after the call, every bull position of the guess holds
the empty string and every other position its original digit. -/
theorem evaluate_guess_frame (s g : List String)
    (hs : s.length = 4) (hg : g.length = 4) :
    ∃ bc, evaluate_guess s g =
      some (bc, s, List.zipWith (fun x y => if x = y then "" else y) s g) := by
  have hstruct := evaluate_guess_struct s g hs hg
  refine ⟨((codePass1 0 s g).1,
    (codePass2 0 (codePass1 0 s g).2.1 (codePass1 0 s g).2.2).1), ?_⟩
  rw [hstruct, codePass1_user s g 0 (by rw [hs, hg])]

/-- C5 witness: the amended theorem applied at secret "1234", guess "1567". -/
theorem evaluate_guess_frame_witness :
    ∃ bc, evaluate_guess ["1","2","3","4"] ["1","5","6","7"] =
      some (bc, ["1","2","3","4"],
        List.zipWith (fun x y => if x = y then "" else y)
          ["1","2","3","4"] ["1","5","6","7"]) :=
  evaluate_guess_frame ["1","2","3","4"] ["1","5","6","7"] (by decide) (by decide)

/-- C6: with persisted scores [5, 9, 20] and new score 3, `highscore`
returns exactly [3, 5, 9, 20]; in general, the returned list is the
ascending sort of the old scores plus the new score, truncated to at most
10 elements. -/
theorem highscore_spec_example :
    (highscore (some ["5".toList, "9".toList, "20".toList]) 3).1 = [3, 5, 9, 20] ∧
    ∀ (file : Option (List (List Char))) (score : Int),
      ∃ L, List.Perm L (read_scores file ++ [score]) ∧
        List.Sorted (fun a b : Int => a ≤ b) L ∧
        (highscore file score).1 = L.take 10 := by
  constructor
  · show ((((read_scores (some ["5".toList, "9".toList, "20".toList]) ++ [3])).mergeSort
      (fun a b => a ≤ b)).take 10) = ([3, 5, 9, 20] : List Int)
    rw [List.mergeSort_eq_insertionSort (fun a b : Int => a ≤ b)]
    decide
  · intro file score
    refine ⟨(read_scores file ++ [score]).mergeSort (fun a b => a ≤ b),
      List.mergeSort_perm _ _, List.sorted_mergeSort' _, rfl⟩

/-- C7: for every score and every prior file state, the list returned by
`highscore` is sorted ascending with at most 10 entries, and the lines
rewritten to the file are exactly those scores in the same order. -/
theorem highscore_sorted_bounded :
    ∀ (file : Option (List (List Char))) (score : Int),
      List.Sorted (fun a b : Int => a ≤ b) (highscore file score).1 ∧
      (highscore file score).1.length ≤ 10 ∧
      (highscore file score).2 = (highscore file score).1.map (fun s => toString s) := by
  intro file score
  refine ⟨?_, ?_, rfl⟩
  · exact List.Pairwise.sublist (List.take_sublist _ _) (List.sorted_mergeSort' _)
  · exact List.length_take_le _ _

theorem read_lines_bad_line :
    ∀ (lines : List (List Char)),
      (∃ l ∈ lines, strip l ≠ [] ∧ pyInt? (strip l) = none) →
      read_lines lines = none := by
  intro lines
  induction lines with
  | nil => rintro ⟨l, hl, _⟩; cases hl
  | cons line rest ih =>
    rintro ⟨l, hl, hne, hbad⟩
    rcases List.mem_cons.mp hl with rfl | hlr
    · simp only [read_lines, if_neg hne, hbad]
    · by_cases hline : strip line = []
      · simp only [read_lines, if_pos hline]
        exact ih ⟨l, hlr, hne, hbad⟩
      · simp only [read_lines, if_neg hline]
        cases hp : pyInt? (strip line) with
        | none => rfl
        | some n => rw [ih ⟨l, hlr, hne, hbad⟩]; rfl

theorem mergeSort_singleton (a : Int) :
    ([a].mergeSort (fun x y => x ≤ y)) = [a] := by
  rw [List.mergeSort_eq_insertionSort (fun x y : Int => x ≤ y)]
  rfl

/-- C8: a missing score file, or one containing a non-blank line that does
not parse as an integer, makes `highscore` behave exactly as if there were
no prior scores: it returns the single-element list [score]. -/
theorem highscore_missing_or_corrupt :
    (∀ score : Int, (highscore none score).1 = [score]) ∧
    (∀ (lines : List (List Char)) (score : Int),
      (∃ l ∈ lines, strip l ≠ [] ∧ pyInt? (strip l) = none) →
      (highscore (some lines) score).1 = [score]) := by
  constructor
  · intro score
    show ((((read_scores none ++ [score])).mergeSort (fun a b => a ≤ b)).take 10) = [score]
    rw [read_scores, List.nil_append, mergeSort_singleton]
    rfl
  · intro lines score hbad
    show ((((read_scores (some lines) ++ [score])).mergeSort (fun a b => a ≤ b)).take 10) = [score]
    rw [read_scores, read_lines_bad_line lines hbad, List.nil_append, mergeSort_singleton]
    rfl

/-- C8 witness: the theorem applied to a file whose only line is "abc". -/
theorem highscore_missing_or_corrupt_witness :
    (highscore (some ["abc".toList]) 7).1 = [7] :=
  highscore_missing_or_corrupt.2 ["abc".toList] 7
    ⟨"abc".toList, by decide, by decide, by decide⟩

/-- C9: `check_python_version` raises a `RuntimeError` if and only if the
interpreter's (major, minor) pair is strictly below the required pair in
lexicographic order; otherwise it returns normally. -/
theorem check_python_version_iff :
    ∀ current required : Nat × Nat,
      ((∃ msg, check_python_version current required = Except.error msg) ↔
        Prod.Lex (fun a b : Nat => a < b) (fun a b : Nat => a < b) current required) ∧
      (¬ Prod.Lex (fun a b : Nat => a < b) (fun a b : Nat => a < b) current required →
        check_python_version current required = Except.ok ()) := by
  intro cur req
  by_cases hc : cur.1 < req.1 ∨ (cur.1 = req.1 ∧ cur.2 < req.2)
  · have hlex : Prod.Lex (fun a b : Nat => a < b) (fun a b : Nat => a < b) cur req :=
      Prod.lex_iff.mpr hc
    refine ⟨⟨fun _ => hlex, fun _ => ?_⟩, fun hn => absurd hlex hn⟩
    rw [check_python_version, if_pos hc]
    exact ⟨_, rfl⟩
  · have hnlex : ¬ Prod.Lex (fun a b : Nat => a < b) (fun a b : Nat => a < b) cur req :=
      fun h => hc (Prod.lex_iff.mp h)
    refine ⟨⟨?_, fun h => absurd h hnlex⟩, fun _ => ?_⟩
    · rintro ⟨msg, h⟩
      rw [check_python_version, if_neg hc] at h
      exact Except.noConfusion h
    · rw [check_python_version, if_neg hc]

/-- C9 witness: at interpreter version (3, 10) against requirement (3, 10)
the check returns normally, and at (3, 9) it raises. -/
theorem check_python_version_iff_witness :
    check_python_version (3, 10) (3, 10) = Except.ok () ∧
    (∃ msg, check_python_version (3, 9) (3, 10) = Except.error msg) :=
  ⟨(check_python_version_iff (3, 10) (3, 10)).2
      (by rw [Prod.lex_iff]; simp),
   (check_python_version_iff (3, 9) (3, 10)).1.mpr
      (by rw [Prod.lex_iff]; simp)⟩

theorem pyRound_add_even (q : ℚ) (m : ℤ) (hm : Even m) :
    pyRound (q + m) = pyRound q + m := by
  have hfl : ⌊q + (m : ℚ)⌋ = ⌊q⌋ + m := Int.floor_add_int q m
  have hfrac : q + (m : ℚ) - ((⌊q⌋ + m : ℤ) : ℚ) = q - ⌊q⌋ := by
    push_cast
    ring
  have heven : Even (⌊q⌋ + m) ↔ Even ⌊q⌋ := by
    constructor
    · intro h
      rcases Int.even_add.mp h with h'
      exact h'.mpr hm
    · intro h
      exact Int.even_add.mpr ⟨fun _ => hm, fun _ => h⟩
  rw [pyRound, pyRound, hfl, hfrac]
  by_cases h1 : q - ⌊q⌋ < 1/2
  · rw [if_pos h1, if_pos h1]
  · rw [if_neg h1, if_neg h1]
    by_cases h2 : 1/2 < q - ⌊q⌋
    · rw [if_pos h2, if_pos h2]
      ring
    · rw [if_neg h2, if_neg h2]
      by_cases h3 : Even ⌊q⌋
      · rw [if_pos (heven.mpr h3), if_pos h3]
      · rw [if_neg (fun hh => h3 (heven.mp hh)), if_neg h3]
        ring

theorem calculate_time_example_eval :
    calculate_time 0 (598/5) = (1, 60, 120) := by
  have hm : ⌊((598/5 : ℚ) - 0) / 60⌋ = 1 := by
    rw [Int.floor_eq_iff]
    norm_num
  have hsec : (598/5 : ℚ) - 0 - 60 * ((1 : ℤ) : ℚ) = 298/5 := by norm_num
  have hs59 : ⌊(298/5 : ℚ)⌋ = 59 := by
    rw [Int.floor_eq_iff]
    norm_num
  have ht119 : ⌊(598/5 : ℚ) - 0⌋ = 119 := by
    rw [Int.floor_eq_iff]
    norm_num
  simp only [calculate_time, hm]
  rw [hsec]
  have hp1 : pyRound (298/5) = 60 := by
    rw [pyRound, hs59]
    norm_num
  have hp2 : pyRound ((598/5 : ℚ) - 0) = 120 := by
    rw [pyRound, ht119]
    norm_num
  rw [hp1, hp2]

/-- C10 counterexample: at the claim's own example input (elapsed 119.6 s,
i.e. 598/5), `calculate_time` returns (1, 60, 120), so the seconds
component is 60 as claimed, but minutes * 60 + seconds = 120 equals the
returned total_seconds rather than differing from it. -/
theorem calculate_time_at_119_6 :
    calculate_time 0 (598/5) = (1, 60, 120) ∧ (1 : ℤ) * 60 + 60 = 120 :=
  ⟨calculate_time_example_eval, by norm_num⟩

/-- C10 (amended): the pair is indeed not kept in normal form: there are
timestamps (elapsed 119.6 s) for which the seconds component equals 60.
However `minutes * 60 + seconds` never differs from `total_seconds`: with
the float timestamps modelled as exact rationals, the identity
`minutes * 60 + seconds = total_seconds` holds for all inputs. -/
theorem calculate_time_not_normal_form :
    (calculate_time 0 (598/5)).2.1 = 60 ∧
    ∀ s e : ℚ, (calculate_time s e).1 * 60 + (calculate_time s e).2.1 =
      (calculate_time s e).2.2 := by
  constructor
  · rw [calculate_time_example_eval]
  · intro s e
    simp only [calculate_time]
    have hsplit : e - s = (e - s - 60 * ⌊(e - s) / 60⌋) + ((60 * ⌊(e - s) / 60⌋ : ℤ) : ℚ) := by
      push_cast
      ring
    have heven : Even (60 * ⌊(e - s) / 60⌋) := ⟨30 * ⌊(e - s) / 60⌋, by ring⟩
    calc ⌊(e - s) / 60⌋ * 60 + pyRound (e - s - 60 * ⌊(e - s) / 60⌋)
        = pyRound (e - s - 60 * ⌊(e - s) / 60⌋) + 60 * ⌊(e - s) / 60⌋ := by ring
      _ = pyRound ((e - s - 60 * ⌊(e - s) / 60⌋) + ((60 * ⌊(e - s) / 60⌋ : ℤ) : ℚ)) := by
          rw [pyRound_add_even _ _ heven]
      _ = pyRound (e - s) := by rw [← hsplit]

end BullsCows
